import Mathlib

/-!
Verification of the alfred-obsidian-search tool (Go, two source variants:
osearch.go with a vault-registry lookup, and a simpler variant without it).

Shallow embedding conventions:
- Go strings are byte sequences; we model them as `List Char`, writing each
  byte as one character.  Theorems about percent-encoding carry an explicit
  hypothesis restricting characters to byte values, matching the byte-level
  behaviour of the Go standard library on single-byte characters.
- Go `int` values that can be negative (string indices, with -1 meaning
  "not found") are modelled as `Int`.
- The external processes (fd, rg), the filesystem and `encoding/json`
  decoding of rg lines are inputs to the modelled functions: the raw output
  of fd is a parameter, and the per-line JSON decoder used by
  `grepMatchingFiles` is passed as a function parameter.
-/

/-- Strings of the Go program, modelled as lists of characters (bytes). -/
abbrev Str := List Char

/-- Convert a Lean string literal to the `Str` model. -/
def toL (s : String) : Str := s.data

/-- Go strings.Split with a one-character separator. -/
def splitOnChar (sep : Char) : Str → List Str
  | [] => [[]]
  | c :: t =>
    if c = sep then [] :: splitOnChar sep t
    else
      match splitOnChar sep t with
      | [] => [[c]]
      | h :: r => (c :: h) :: r

/-- Remove all trailing occurrences of a character. -/
def dropTrailing (c : Char) (s : Str) : Str := (s.reverse.dropWhile (· = c)).reverse

/-- Keep the part of the string after the last occurrence of a character. -/
def afterLast (c : Char) (s : Str) : Str := (s.reverse.takeWhile (· ≠ c)).reverse

/-- Go filepath.Base on unix paths: last element of the path, after removing
trailing slashes; "." for the empty path, "/" when the path is all slashes. -/
def baseName (p : Str) : Str :=
  if p = [] then ['.']
  else
    let q := dropTrailing '/' p
    if q = [] then ['/'] else afterLast '/' q

/-- Index of the first occurrence of `p` as a substring of `s`
(`none` when absent).  Mirrors Go strings.Index up to the -1 encoding;
the empty pattern occurs at index 0, as in Go. -/
def indexOfSub : Str → Str → Option Nat
  | [], p => if p = [] then some 0 else none
  | c :: t, p =>
    if p.isPrefixOf (c :: t) then some 0
    else (indexOfSub t p).map (· + 1)

/-- Go strings.Index: first occurrence index, -1 when absent. -/
def strIndex (s p : Str) : Int :=
  match indexOfSub s p with
  | some n => (n : Int)
  | none => -1

/-- Index of the last occurrence of a character (`none` when absent). -/
def lastIdxAux : Str → Char → Option Nat
  | [], _ => none
  | a :: t, c =>
    match lastIdxAux t c with
    | some n => some (n + 1)
    | none => if a = c then some 0 else none

/-- Go strings.LastIndex for a one-character pattern: last index, -1 when absent. -/
def lastIndexOfChar (s : Str) (c : Char) : Int :=
  match lastIdxAux s c with
  | some n => (n : Int)
  | none => -1

/-- Go function `fruncate` (truncate something from the front), verbatim from
the source: if the first index of `p` in `s` is greater than `n`, cut `n`
characters of context before the match, moving the cut left to just after a
space when the last space before the cut is at a strictly positive index and
within `m` characters of the cut. -/
def fruncate (s p : Str) (n m : Int) : Str :=
  let index := strIndex s p
  if n < index then
    let mx := index - n
    let mn := mx - m
    let breakIndex := lastIndexOfChar (s.take mx.toNat) ' '
    if 0 < breakIndex ∧ mn ≤ breakIndex then s.drop (breakIndex + 1).toNat
    else s.drop mx.toNat
  else s

/-- Go function `withoutMd`: strip a trailing ".md". -/
def withoutMd (filename : Str) : Str :=
  if (toL ".md").isSuffixOf filename then filename.take (filename.length - 3)
  else filename

/-- Upper-case hexadecimal digit, as used by the Go net/url escaper. -/
def upperHexDigit (n : Nat) : Char :=
  if n < 10 then Char.ofNat (48 + n) else Char.ofNat (55 + n)

/-- Go net/url shouldEscape for the encodePathSegment mode, used by
url.PathEscape: alphanumerics, the marks - _ . ~ and the reserved characters
$ & + : = @ stay literal, everything else (including / ; , ?) is escaped. -/
def shouldEscape (c : Char) : Bool :=
  if ('a' ≤ c ∧ c ≤ 'z') ∨ ('A' ≤ c ∧ c ≤ 'Z') ∨ ('0' ≤ c ∧ c ≤ '9') then false
  else if c = '-' ∨ c = '_' ∨ c = '.' ∨ c = '~' then false
  else if c = '$' ∨ c = '&' ∨ c = '+' ∨ c = ',' ∨ c = '/' ∨ c = ':' ∨ c = ';' ∨ c = '=' ∨ c = '?' ∨ c = '@'
    then decide (c = '/' ∨ c = ';' ∨ c = ',' ∨ c = '?')
  else true

/-- Go url.PathEscape on single-byte characters: escaped bytes become
%XX with upper-case hexadecimal digits. -/
def pathEscape (s : Str) : Str :=
  s.flatMap fun c =>
    if shouldEscape c then ['%', upperHexDigit (c.toNat / 16), upperHexDigit (c.toNat % 16)]
    else [c]

/-- Go function `asObsidianUrl`: the vault is interpolated verbatim, only the
path goes through url.PathEscape. -/
def asObsidianUrl (path vault : Str) : Str :=
  toL "obsidian://open?vault=" ++ vault ++ toL "&file=" ++ pathEscape path

/-- Value of a hexadecimal digit character (upper or lower case). -/
def hexVal (c : Char) : Option Nat :=
  if c ≤ '9' ∧ '0' ≤ c then some (c.toNat - 48)
  else if c ≤ 'F' ∧ 'A' ≤ c then some (c.toNat - 55)
  else if c ≤ 'f' ∧ 'a' ≤ c then some (c.toNat - 87)
  else none

/-- Standard percent-decoding: every valid %XX triple becomes the byte XX,
anything else passes through unchanged. -/
def pctDecode : Str → Str
  | '%' :: a :: b :: rest =>
    match hexVal a, hexVal b with
    | some x, some y => Char.ofNat (16 * x + y) :: pctDecode rest
    | _, _ => '%' :: pctDecode (a :: b :: rest)
  | c :: t => c :: pctDecode t
  | [] => []

/-- Go struct AlfredResult. -/
structure AlfredResult where
  type : Str
  title : Str
  subtitle : Str
  arg : Str
deriving DecidableEq

/-- Zero value of the Go AlfredResult struct: all fields empty. -/
def zeroResult : AlfredResult := ⟨[], [], [], []⟩

/-- Go function `findMatchingFiles`, result-shaping part: the raw
null-delimited fd output is a parameter.  The Go code allocates the result
slice with `make` at the full token count and fills only the indices of
non-empty tokens, so empty tokens keep the zero value of the struct. -/
def findMatchingFiles (rawOut : Str) (vault : Str) : List AlfredResult :=
  (splitOnChar (Char.ofNat 0) rawOut).map fun mtch =>
    if 0 < mtch.length then
      { type := toL "default"
        title := withoutMd (baseName mtch)
        subtitle := []
        arg := asObsidianUrl mtch vault }
    else zeroResult

/-- Go struct RipGrepResult, flattening the nested Data.Path.Text and
Data.Lines.Text fields. -/
structure RipGrepResult where
  type : Str
  pathText : Str
  linesText : Str
deriving DecidableEq

/-- Result built for one rg match record, as in the body of the loop of
`grepMatchingFiles`. -/
def mkGrepResult (searchTerm vault : Str) (r : RipGrepResult) : AlfredResult :=
  { type := toL "default"
    title := withoutMd (baseName r.pathText)
    subtitle := fruncate r.linesText searchTerm 10 5
    arg := asObsidianUrl r.pathText vault }

/-- Go function `grepMatchingFiles`, line-processing part.  The rg output is
already split into lines; `decode` stands for encoding/json unmarshalling of
one line into a RipGrepResult (each match line of rg carries all fields).
Lines that do not start with a brace are skipped; a line that starts with a
brace but fails to decode aborts the whole run (log.Fatalf), modelled as
`Except.error` carrying that line; decoded lines whose type is not "match"
are skipped; a match whose path was already seen is skipped, otherwise a
result is appended and the path recorded. -/
def grepMatchingFiles (decode : Str → Option RipGrepResult) (searchTerm vault : Str)
    (alreadyFound : List Str) : List Str → Except Str (List AlfredResult)
  | [] => Except.ok []
  | line :: rest =>
    if (toL "\x7b").isPrefixOf line then
      match decode line with
      | none => Except.error line
      | some rgr =>
        if rgr.type = toL "match" then
          if rgr.pathText ∈ alreadyFound then
            grepMatchingFiles decode searchTerm vault alreadyFound rest
          else
            match grepMatchingFiles decode searchTerm vault (rgr.pathText :: alreadyFound) rest with
            | Except.ok rs => Except.ok (mkGrepResult searchTerm vault rgr :: rs)
            | Except.error e => Except.error e
        else grepMatchingFiles decode searchTerm vault alreadyFound rest
    else grepMatchingFiles decode searchTerm vault alreadyFound rest

/-- Match records of the rg stream: decoded brace lines whose type is
"match", in stream order. -/
def matchRecords (decode : Str → Option RipGrepResult) (lines : List Str) : List RipGrepResult :=
  lines.filterMap fun line =>
    if (toL "\x7b").isPrefixOf line then
      match decode line with
      | some rgr => if rgr.type = toL "match" then some rgr else none
      | none => none
    else none

/-- Keep only the first record for each path (paths in `seen` are dropped). -/
def dedupFirst (seen : List Str) : List RipGrepResult → List RipGrepResult
  | [] => []
  | r :: rs =>
    if r.pathText ∈ seen then dedupFirst seen rs
    else r :: dedupFirst (r.pathText :: seen) rs

/-- Go struct ObsidianVault (the registry variant).  The Go field Open is
renamed because `open` is reserved in Lean. -/
structure ObsidianVault where
  path : Str
  ts : Int
  isOpen : Bool
deriving DecidableEq

/-- Go function `getDefaults`, after the registry file has been read and
parsed (both failures are fatal before this point): first open vault wins.
Go iterates the vault map in unspecified order; the model fixes one order by
taking a list. -/
def getDefaults : List (Str × ObsidianVault) → Str × Str
  | [] => ([], [])
  | (vaultId, v) :: rest => if v.isOpen then (vaultId, v.path) else getDefaults rest

/-- Go strings.Join with a single-space separator. -/
def joinSpace : List Str → Str
  | [] => []
  | [a] => a
  | a :: rest => a ++ ' ' :: joinSpace rest

/-- Outcome of the argument-resolution phase of main, before any search
work: a fatal configuration error (log.Fatal with a message), the usage
error for a missing search term, or entry into the selected search with the
resolved term, directory and vault name. -/
inductive MainOutcome where
  | fatalConfig : Str → MainOutcome
  | fatalUsage : MainOutcome
  | runSearch : Bool → Str → Str → Str → MainOutcome
deriving DecidableEq

/-- Resolution phase of main in the registry variant (osearch.go): empty
flag values fall back to `getDefaults`; there is no check that the merged
vault name or path is non-empty.  `expand` stands for expandHome, whose
result depends on the home directory of the invoking user. -/
def mainRegistry (expand : Str → Str) (grepMode : Bool) (flagVault flagPath : Str)
    (args : List Str) (vaults : List (Str × ObsidianVault)) : MainOutcome :=
  let d := getDefaults vaults
  let vaultName := if flagVault.length = 0 then d.1 else flagVault
  let vaultPath := if flagPath.length = 0 then d.2 else flagPath
  if 1 ≤ args.length then
    MainOutcome.runSearch grepMode (joinSpace args) (expand vaultPath) vaultName
  else MainOutcome.fatalUsage

/-- Resolution phase of main in the variant without registry lookup: an
empty vault name or vault path is unconditionally fatal, with a message
naming the missing value. -/
def mainSimple (expand : Str → Str) (grepMode : Bool) (flagVault flagPath : Str)
    (args : List Str) : MainOutcome :=
  if flagVault.length = 0 then
    MainOutcome.fatalConfig (toL "vault name must be specified with --vault")
  else if flagPath.length = 0 then
    MainOutcome.fatalConfig (toL "vault path must be specified with --path")
  else if 1 ≤ args.length then
    MainOutcome.runSearch grepMode (joinSpace args) (expand flagPath) flagVault
  else MainOutcome.fatalUsage

/-- Follows the wording of claim C1 verbatim: a word-boundary break is
accepted anywhere in the window, including position 0. -/
def fruncateSpecC1 (s p : Str) : Str :=
  let index := strIndex s p
  if 10 < index then
    let cut := index - 10
    let breakIndex := lastIndexOfChar (s.take cut.toNat) ' '
    if 0 ≤ breakIndex ∧ cut - 5 ≤ breakIndex then s.drop (breakIndex + 1).toNat
    else s.drop cut.toNat
  else s

/-- Follows the wording of the amended claim C1: the break position must
additionally be strictly positive. -/
def fruncateAmendedC1 (s p : Str) : Str :=
  let index := strIndex s p
  let cut := index - 10
  let breakIndex := lastIndexOfChar (s.take cut.toNat) ' '
  if 0 < breakIndex ∧ cut - 5 ≤ breakIndex then s.drop (breakIndex + 1).toNat
  else s.drop cut.toNat

/-! ## Helper lemmas about the string searching primitives -/

theorem indexOfSub_drop (s p : Str) : ∀ k, indexOfSub s p = some k → p.isPrefixOf (s.drop k) = true := by
  induction s with
  | nil =>
    intro k h
    unfold indexOfSub at h
    split at h
    · rename_i hp
      injection h with h0
      subst h0
      subst hp
      rfl
    · exact absurd h (by simp)
  | cons c t ih =>
    intro k h
    unfold indexOfSub at h
    split at h
    · rename_i hp
      injection h with h0
      subst h0
      simpa using hp
    · rcases Option.map_eq_some'.mp h with ⟨k', hk', rfl⟩
      simpa using ih k' hk'

theorem lastIdxAux_lt (s : Str) (c : Char) : ∀ j, lastIdxAux s c = some j → j < s.length := by
  induction s with
  | nil => intro j h; exact absurd h (by simp [lastIdxAux])
  | cons a t ih =>
    intro j h
    unfold lastIdxAux at h
    split at h
    · rename_i n hn
      injection h with h0
      subst h0
      have := ih n hn
      simp only [List.length_cons]
      omega
    · split at h
      · injection h with h0; subst h0; simp
      · exact absurd h (by simp)

/-! ## C8: a term at index at most 10, or absent, leaves the line unchanged -/

/-- C8: for every line s and term p whose first occurrence index is at most
N=10 (including the absent case, index -1), fruncate(s, p, 10, 5) returns s
unmodified. -/
theorem fruncate_index_le_returns_line (s p : Str) (h : strIndex s p ≤ 10) :
    fruncate s p 10 5 = s := by
  simp only [fruncate]
  rw [if_neg (by omega)]

/-- Witness for C8 at a concrete input where the term is absent. -/
theorem fruncate_index_le_returns_line_witness :
    strIndex (toL "hello") (toL "zz") ≤ 10
    ∧ fruncate (toL "hello") (toL "zz") 10 5 = toL "hello" :=
  ⟨by decide, fruncate_index_le_returns_line (toL "hello") (toL "zz") (by decide)⟩

/-! ## C1: truncation with a word-boundary window -/

/-- C1 counterexample: with the last space of the prefix at position 0 and
inside the window, the code rejects the break (it requires a strictly
positive position) and cuts at the computed index, while the claim as
stated accepts position 0 and would return the substring just after the
space.  The two results differ on this input. -/
theorem fruncate_break_at_zero_cex :
    fruncate (toL " abcdefghijkXY") (toL "XY") 10 5 = toL "bcdefghijkXY"
    ∧ fruncateSpecC1 (toL " abcdefghijkXY") (toL "XY") = toL "abcdefghijkXY"
    ∧ fruncateSpecC1 (toL " abcdefghijkXY") (toL "XY")
        ≠ fruncate (toL " abcdefghijkXY") (toL "XY") 10 5 := by decide

/-- C1 amended: when the first occurrence index exceeds 10, fruncate cuts
at index − 10, moving the cut to just after the last space before the cut
whenever that space lies within 5 characters of the cut and at a strictly
positive position. -/
theorem fruncate_word_boundary (s p : Str) (h : 10 < strIndex s p) :
    fruncate s p 10 5 = fruncateAmendedC1 s p := by
  simp only [fruncate, fruncateAmendedC1]
  rw [if_pos h]

/-- Witness for the amended C1 at a concrete input. -/
theorem fruncate_word_boundary_witness :
    10 < strIndex (toL " abcdefghijkXY") (toL "XY")
    ∧ fruncate (toL " abcdefghijkXY") (toL "XY") 10 5
        = fruncateAmendedC1 (toL " abcdefghijkXY") (toL "XY") :=
  ⟨by decide, fruncate_word_boundary _ _ (by decide)⟩

/-! ## C10: fruncate returns a suffix that keeps the first occurrence -/

/-- C10: for non-negative n and m the result of fruncate is a contiguous
suffix of the line, and when the (non-empty) term occurs, the suffix still
contains the first occurrence in full: the cut point d is at most the match
index k, and the term is a prefix of the suffix shifted by k − d. -/
theorem fruncate_suffix_keeps_match (s p : Str) (n m : Int) (hn : 0 ≤ n) (hm : 0 ≤ m) :
    fruncate s p n m <:+ s
    ∧ (p ≠ [] → ∀ k, indexOfSub s p = some k →
        ∃ d, d ≤ k ∧ fruncate s p n m = s.drop d
          ∧ p.isPrefixOf ((fruncate s p n m).drop (k - d)) = true) := by
  constructor
  · simp only [fruncate]
    split
    · split
      · exact List.drop_suffix _ _
      · exact List.drop_suffix _ _
    · exact List.suffix_refl s
  · intro _ k hk
    have hks : strIndex s p = (k : Int) := by unfold strIndex; rw [hk]
    have hpk : p.isPrefixOf (s.drop k) = true := indexOfSub_drop s p k hk
    simp only [fruncate]
    split
    · rename_i h1
      split
      · rename_i h2
        obtain ⟨h2a, _⟩ := h2
        rcases hL : lastIdxAux (s.take (strIndex s p - n).toNat) ' ' with _ | j
        · rw [lastIndexOfChar, hL] at h2a
          exact absurd h2a (by decide)
        · have hj : j < (s.take (strIndex s p - n).toNat).length := lastIdxAux_lt _ _ j hL
          rw [List.length_take] at hj
          have hj2 : j < ((k : Int) - n).toNat := by
            rw [hks] at hj
            exact lt_of_lt_of_le hj (min_le_left _ _)
          have hjk : j + 1 ≤ k := by omega
          have hLI : lastIndexOfChar (List.take (strIndex s p - n).toNat s) ' ' = (j : Int) := by
            rw [lastIndexOfChar, hL]
          have h1' : ((j : Int) + 1).toNat = j + 1 := by omega
          refine ⟨j + 1, hjk, ?_, ?_⟩
          · rw [hLI, h1']
          · rw [hLI, h1', List.drop_drop]
            have h2' : j + 1 + (k - (j + 1)) = k := by omega
            rw [h2']
            exact hpk
      · refine ⟨(strIndex s p - n).toNat, ?_, rfl, ?_⟩
        · rw [hks]; omega
        · rw [List.drop_drop]
          have h2' : (strIndex s p - n).toNat + (k - (strIndex s p - n).toNat) = k := by
            rw [hks]; omega
          rw [h2']
          exact hpk
    · exact ⟨0, Nat.zero_le k, rfl, by simpa using hpk⟩

/-- Witness for C10 at a concrete input with an occurring term. -/
theorem fruncate_suffix_keeps_match_witness :
    (0 : Int) ≤ 10 ∧ (0 : Int) ≤ 5
    ∧ fruncate (toL "The quick brown fox jumps over the lazy dog") (toL "lazy") 10 5
        <:+ toL "The quick brown fox jumps over the lazy dog" :=
  ⟨by decide, by decide,
    (fruncate_suffix_keeps_match (toL "The quick brown fox jumps over the lazy dog")
      (toL "lazy") 10 5 (by decide) (by decide)).1⟩

/-! ## C7: the title strips exactly a trailing ".md" -/

/-- C7: a base filename ending in ".md" loses exactly those three trailing
characters; any other base filename is returned unchanged. -/
theorem withoutMd_strips_exactly_md :
    (∀ g : Str, withoutMd (g ++ toL ".md") = g)
    ∧ ∀ f : Str, ¬ (toL ".md" <:+ f) → withoutMd f = f := by
  constructor
  · intro g
    unfold withoutMd
    rw [if_pos (List.isSuffixOf_iff_suffix.mpr (List.suffix_append g (toL ".md")))]
    have h3 : (toL ".md").length = 3 := rfl
    have hl : (g ++ toL ".md").length - 3 = g.length := by
      rw [List.length_append, h3]
      omega
    rw [hl, List.take_left]
  · intro f hf
    unfold withoutMd
    rw [if_neg]
    intro hcon
    exact hf (List.isSuffixOf_iff_suffix.mp hcon)

/-- Witness for C7 at concrete inputs for both branches. -/
theorem withoutMd_strips_exactly_md_witness :
    withoutMd (toL "Notes" ++ toL ".md") = toL "Notes"
    ∧ ¬ (toL ".md" <:+ toL "plan.txt")
    ∧ withoutMd (toL "plan.txt") = toL "plan.txt" :=
  ⟨withoutMd_strips_exactly_md.1 (toL "Notes"), by decide,
    withoutMd_strips_exactly_md.2 (toL "plan.txt") (by decide)⟩

/-! ## C3: filename mode shaping at a raw fd output with a trailing null -/

/-- C3: evaluation of the filename-mode shaping at the fd output
"Notes.md\x00plan.txt\x00".  The split yields a trailing empty token, and
because the Go code pre-sizes the result slice to the token count and only
fills indices of non-empty tokens, the emitted list has a third, zero-valued
item (empty type, title, subtitle and arg) — contradicting the claim that
no item is produced for an empty token and that every item has kind
"default". -/
theorem findMatchingFiles_zero_item_for_empty_token :
    findMatchingFiles (toL "Notes.md" ++ Char.ofNat 0 :: (toL "plan.txt" ++ [Char.ofNat 0])) (toL "v")
      = [⟨toL "default", toL "Notes", [], toL "obsidian://open?vault=v&file=Notes.md"⟩,
         ⟨toL "default", toL "plan.txt", [], toL "obsidian://open?vault=v&file=plan.txt"⟩,
         zeroResult] := by decide

/-! ## C5: missing vault name or path at startup -/

/-- C5 counterexample (registry variant): with no explicit vault flags and a
registry with no open vault, main does not stop with a configuration error;
it proceeds to the search phase with an empty directory and an empty vault
name. -/
theorem mainRegistry_proceeds_without_values :
    mainRegistry id false [] [] [toL "note"] []
      = MainOutcome.runSearch false (toL "note") [] [] := by decide

/-- C5 amended: in the variant without registry lookup, a missing vault name
or vault path is fatal before any search, with a message naming the missing
value. -/
theorem mainSimple_fatal_on_missing (expand : Str → Str) (g : Bool) (fv fp : Str)
    (args : List Str) (h : fv.length = 0 ∨ fp.length = 0) :
    mainSimple expand g fv fp args
      = MainOutcome.fatalConfig
          (if fv.length = 0 then toL "vault name must be specified with --vault"
           else toL "vault path must be specified with --path") := by
  unfold mainSimple
  by_cases hv : fv.length = 0
  · rw [if_pos hv, if_pos hv]
  · have hp : fp.length = 0 := h.resolve_left hv
    rw [if_neg hv, if_pos hp, if_neg hv]

/-- Witness for the amended C5 at a concrete input. -/
theorem mainSimple_fatal_on_missing_witness :
    (([] : Str).length = 0 ∨ (toL "/v").length = 0)
    ∧ mainSimple id false [] (toL "/v") [toL "t"]
        = MainOutcome.fatalConfig (toL "vault name must be specified with --vault") :=
  ⟨Or.inl rfl, mainSimple_fatal_on_missing id false [] (toL "/v") [toL "t"] (Or.inl rfl)⟩

/-! ## C9: dispatch on the shape of each rg output line -/

/-- C9: a line that does not start with a brace is skipped without error; a
brace line that fails to decode aborts the run with a fatal error carrying
that line (no partial result); a decoded line whose type is not "match" is
skipped without error. -/
theorem grepMatchingFiles_line_dispatch (decode : Str → Option RipGrepResult)
    (searchTerm vault : Str) (seen : List Str) (l : Str) (ls : List Str) :
    ((toL "\x7b").isPrefixOf l = false →
      grepMatchingFiles decode searchTerm vault seen (l :: ls)
        = grepMatchingFiles decode searchTerm vault seen ls)
    ∧ ((toL "\x7b").isPrefixOf l = true → decode l = none →
      grepMatchingFiles decode searchTerm vault seen (l :: ls) = Except.error l)
    ∧ (∀ rgr, (toL "\x7b").isPrefixOf l = true → decode l = some rgr →
        rgr.type ≠ toL "match" →
      grepMatchingFiles decode searchTerm vault seen (l :: ls)
        = grepMatchingFiles decode searchTerm vault seen ls) := by
  refine ⟨?_, ?_, ?_⟩
  · intro h
    simp only [grepMatchingFiles, h]
    rfl
  · intro h hd
    simp only [grepMatchingFiles, h, hd]
    rfl
  · intro rgr h hd ht
    simp only [grepMatchingFiles, h, hd]
    rw [if_neg ht]
    split <;> rfl

/-- Witness for C9: a brace line that fails to decode is fatal. -/
theorem grepMatchingFiles_line_dispatch_witness :
    grepMatchingFiles (fun _ => none) (toL "q") (toL "v") [] [toL "\x7bbad"]
      = Except.error (toL "\x7bbad") :=
  (grepMatchingFiles_line_dispatch (fun _ => none) (toL "q") (toL "v") [] (toL "\x7bbad") []).2.1
    (by decide) rfl

/-! ## Helper lemmas about percent-encoding -/

theorem hexVal_upperHexDigit : ∀ x, x < 16 → hexVal (upperHexDigit x) = some x := by decide

theorem amp_ne_upperHexDigit : ∀ x, x < 16 → upperHexDigit x ≠ '&' := by decide

theorem pctDecode_cons_ne (c : Char) (t : Str) (h : c ≠ '%') :
    pctDecode (c :: t) = c :: pctDecode t := by
  conv_lhs => rw [pctDecode.eq_def]
  split
  · rename_i a b rest heq
    injection heq with h1 _
    exact absurd h1 h
  · rename_i c2 t2 _ heq
    injection heq with h1 h2
    rw [h1, h2]
  · rename_i heq
    exact absurd heq (by simp)

theorem pctDecode_triple (a b : Char) (rest : Str) (x y : Nat)
    (ha : hexVal a = some x) (hb2 : hexVal b = some y) :
    pctDecode ('%' :: a :: b :: rest) = Char.ofNat (16 * x + y) :: pctDecode rest := by
  rw [pctDecode.eq_def]
  simp only [ha, hb2]

theorem pctDecode_no_pct (a : Str) (b : Str) (ha : ∀ ch ∈ a, ch ≠ '%') :
    pctDecode (a ++ b) = a ++ pctDecode b := by
  induction a with
  | nil => rfl
  | cons c a' ih =>
    rw [List.cons_append, pctDecode_cons_ne c _ (ha c (by simp)),
      ih (fun ch hch => ha ch (by simp [hch]))]
    rfl

theorem pctDecode_pathEscape (p : Str) (hb : ∀ ch ∈ p, ch.toNat < 256) :
    pctDecode (pathEscape p) = p := by
  induction p with
  | nil => rfl
  | cons c p' ih =>
    have hc : c.toNat < 256 := hb c (by simp)
    have ih' := ih (fun ch hch => hb ch (by simp [hch]))
    rw [pathEscape, List.flatMap_cons]
    by_cases hesc : shouldEscape c
    · rw [if_pos hesc]
      have hv1 : hexVal (upperHexDigit (c.toNat / 16)) = some (c.toNat / 16) :=
        hexVal_upperHexDigit _ (by omega)
      have hv2 : hexVal (upperHexDigit (c.toNat % 16)) = some (c.toNat % 16) :=
        hexVal_upperHexDigit _ (by omega)
      rw [List.cons_append, List.cons_append, List.singleton_append]
      rw [pctDecode_triple _ _ _ _ _ hv1 hv2]
      have harith : 16 * (c.toNat / 16) + c.toNat % 16 = c.toNat := by omega
      rw [harith, Char.ofNat_toNat]
      rw [← pathEscape]
      exact congrArg (c :: ·) ih'
    · rw [if_neg hesc]
      have hne : c ≠ '%' := by
        intro hc'
        subst hc'
        exact hesc (by decide)
      rw [List.singleton_append, pctDecode_cons_ne c _ hne]
      rw [← pathEscape]
      exact congrArg (c :: ·) ih'

theorem amp_notin_pathEscape (p : Str) (hp : '&' ∉ p) (hb : ∀ ch ∈ p, ch.toNat < 256) :
    '&' ∉ pathEscape p := by
  intro hmem
  rw [pathEscape] at hmem
  rcases List.mem_flatMap.mp hmem with ⟨c, hc, hin⟩
  have hcb : c.toNat < 256 := hb c hc
  by_cases hesc : shouldEscape c
  · rw [if_pos hesc] at hin
    simp only [List.mem_cons, List.not_mem_nil, or_false] at hin
    rcases hin with h | h | h
    · exact absurd h (by decide)
    · exact amp_ne_upperHexDigit _ (by omega) h.symm
    · exact amp_ne_upperHexDigit _ (by omega) h.symm
  · rw [if_neg hesc] at hin
    simp only [List.mem_cons, List.not_mem_nil, or_false] at hin
    subst hin
    exact hp hc

/-! ## C2: the produced application URL -/

/-- C2 counterexample: the vault identifier is interpolated verbatim, so a
vault containing an ampersand yields a URL with two literal ampersands and
an unencoded vault, contradicting the claim for every pair. -/
theorem asObsidianUrl_amp_cex :
    (asObsidianUrl (toL "x") (toL "a&b")).count '&' = 2
    ∧ asObsidianUrl (toL "x") (toL "a&b") = toL "obsidian://open?vault=a&b&file=x" := by decide

/-- C2 amended: for a vault free of ampersand and percent characters and a
path free of ampersands (characters being bytes), the URL percent-decodes
back to the original vault and path, contains exactly one literal
ampersand, and consists of the fixed prefix, the vault verbatim, the
separator and the percent-encoded path. -/
theorem asObsidianUrl_roundtrip (path vault : Str)
    (hva : '&' ∉ vault) (hvp : '%' ∉ vault) (hpa : '&' ∉ path)
    (hb : ∀ ch ∈ path, ch.toNat < 256) :
    pctDecode (asObsidianUrl path vault)
      = toL "obsidian://open?vault=" ++ (vault ++ (toL "&file=" ++ path))
    ∧ (asObsidianUrl path vault).count '&' = 1
    ∧ asObsidianUrl path vault
      = toL "obsidian://open?vault=" ++ (vault ++ (toL "&file=" ++ pathEscape path)) := by
  refine ⟨?_, ?_, by simp [asObsidianUrl]⟩
  · rw [asObsidianUrl]
    rw [List.append_assoc, List.append_assoc]
    rw [pctDecode_no_pct (toL "obsidian://open?vault=") _ (by decide)]
    rw [pctDecode_no_pct vault _ (fun ch hch he => hvp (he ▸ hch))]
    rw [pctDecode_no_pct (toL "&file=") _ (by decide)]
    rw [pctDecode_pathEscape path hb]
  · rw [asObsidianUrl]
    rw [List.append_assoc, List.append_assoc]
    rw [List.count_append, List.count_append, List.count_append]
    have h1 : (toL "obsidian://open?vault=").count '&' = 0 := by decide
    have h2 : vault.count '&' = 0 := List.count_eq_zero.mpr hva
    have h3 : (toL "&file=").count '&' = 1 := by decide
    have h4 : (pathEscape path).count '&' = 0 :=
      List.count_eq_zero.mpr (amp_notin_pathEscape path hpa hb)
    omega

/-- Witness for the amended C2 at a concrete pair with a space in the path. -/
theorem asObsidianUrl_roundtrip_witness :
    ('&' ∉ toL "Work") ∧ ('%' ∉ toL "Work") ∧ ('&' ∉ toL "a b.md")
    ∧ pctDecode (asObsidianUrl (toL "a b.md") (toL "Work"))
        = toL "obsidian://open?vault=" ++ (toL "Work" ++ (toL "&file=" ++ toL "a b.md")) :=
  ⟨by decide, by decide, by decide,
    (asObsidianUrl_roundtrip (toL "a b.md") (toL "Work")
      (by decide) (by decide) (by decide) (by decide)).1⟩

/-! ## Helper lemmas for the grep pipeline -/

theorem matchRecords_cons_nopre (decode : Str → Option RipGrepResult) (l : Str) (ls : List Str)
    (h : (toL "\x7b").isPrefixOf l = false) :
    matchRecords decode (l :: ls) = matchRecords decode ls := by
  have h' : ¬ toL "\x7b" <+: l := fun hc => by
    rw [List.isPrefixOf_iff_prefix.mpr hc] at h
    simp at h
  simp [matchRecords, List.filterMap_cons, h']

theorem matchRecords_cons_match (decode : Str → Option RipGrepResult) (l : Str) (ls : List Str)
    (r : RipGrepResult) (hp : (toL "\x7b").isPrefixOf l = true) (hd : decode l = some r)
    (ht : r.type = toL "match") :
    matchRecords decode (l :: ls) = r :: matchRecords decode ls := by
  have hp' : toL "\x7b" <+: l := by simpa using hp
  simp [matchRecords, List.filterMap_cons, hp', hd, ht]

theorem matchRecords_cons_skip (decode : Str → Option RipGrepResult) (l : Str) (ls : List Str)
    (r : RipGrepResult) (hp : (toL "\x7b").isPrefixOf l = true) (hd : decode l = some r)
    (ht : ¬ r.type = toL "match") :
    matchRecords decode (l :: ls) = matchRecords decode ls := by
  have hp' : toL "\x7b" <+: l := by simpa using hp
  simp [matchRecords, List.filterMap_cons, hp', hd, ht]

theorem grepMatchingFiles_ok_eq (decode : Str → Option RipGrepResult) (t v : Str) :
    ∀ (lines : List Str) (seen : List Str) (res : List AlfredResult),
      grepMatchingFiles decode t v seen lines = Except.ok res →
      res = (dedupFirst seen (matchRecords decode lines)).map (mkGrepResult t v) := by
  intro lines
  induction lines with
  | nil =>
    intro seen res h
    injection h with h'
    subst h'
    rfl
  | cons l ls ih =>
    intro seen res h
    rw [grepMatchingFiles] at h
    by_cases hp : (toL "\x7b").isPrefixOf l
    · rw [if_pos hp] at h
      rcases hd : decode l with _ | r
      · rw [hd] at h
        simp only [] at h
        exact absurd h (by simp)
      · rw [hd] at h
        simp only [] at h
        by_cases ht : r.type = toL "match"
        · rw [matchRecords_cons_match decode l ls r hp hd ht, dedupFirst]
          rw [if_pos ht] at h
          by_cases hs : r.pathText ∈ seen
          · rw [if_pos hs] at h
            rw [if_pos hs]
            exact ih seen res h
          · rw [if_neg hs] at h
            rw [if_neg hs]
            rcases hrec : grepMatchingFiles decode t v (r.pathText :: seen) ls with e | rs
            · rw [hrec] at h
              simp only [] at h
              exact absurd h (by simp)
            · rw [hrec] at h
              simp only [] at h
              injection h with h'
              subst h'
              rw [List.map_cons]
              exact congrArg (mkGrepResult t v r :: ·) (ih (r.pathText :: seen) rs hrec)
        · rw [if_neg ht] at h
          rw [matchRecords_cons_skip decode l ls r hp hd ht]
          exact ih seen res h
    · have hp' : (toL "\x7b").isPrefixOf l = false := Bool.eq_false_iff.mpr hp
      rw [if_neg hp] at h
      rw [matchRecords_cons_nopre decode l ls hp']
      exact ih seen res h

theorem dedupFirst_filter (P : Str) :
    ∀ (M : List RipGrepResult) (seen : List Str),
      (dedupFirst seen M).filter (fun r => decide (r.pathText = P))
        = if P ∈ seen then [] else (M.filter (fun r => decide (r.pathText = P))).take 1 := by
  intro M
  induction M with
  | nil =>
    intro seen
    by_cases hP : P ∈ seen <;> simp [dedupFirst, hP]
  | cons r rs ih =>
    intro seen
    by_cases hs : r.pathText ∈ seen
    · by_cases hP : P ∈ seen
      · simp [dedupFirst, hs, hP, ih seen]
      · have hne : ¬ (r.pathText = P) := fun he => hP (he ▸ hs)
        simp [dedupFirst, hs, hP, ih seen, hne]
    · by_cases hrP : r.pathText = P
      · subst hrP
        simp [dedupFirst, hs, ih (r.pathText :: seen)]
      · have hPr : ¬ (P = r.pathText) := fun he => hrP he.symm
        by_cases hP : P ∈ seen
        · simp [dedupFirst, hs, hrP, hPr, hP, ih (r.pathText :: seen)]
        · simp [dedupFirst, hs, hrP, hPr, hP, ih (r.pathText :: seen)]

/-! ## C4: content-mode deduplication keeps the first record per path -/

/-- C4: when the grep run succeeds, the result list is exactly the
per-path-deduplicated match records mapped to result items; for a path with
two or more match records, exactly one record survives deduplication,
namely the first one in stream order, so exactly one ResultItem is built
from that first record and later records for the same path are skipped. -/
theorem grepMatchingFiles_dedup (decode : Str → Option RipGrepResult) (t v : Str)
    (lines : List Str) (res : List AlfredResult) (P : Str)
    (hok : grepMatchingFiles decode t v [] lines = Except.ok res)
    (hdup : 2 ≤ ((matchRecords decode lines).filter (fun r => decide (r.pathText = P))).length) :
    res = (dedupFirst [] (matchRecords decode lines)).map (mkGrepResult t v)
    ∧ ((dedupFirst [] (matchRecords decode lines)).filter (fun r => decide (r.pathText = P))).length = 1
    ∧ (dedupFirst [] (matchRecords decode lines)).filter (fun r => decide (r.pathText = P))
        = ((matchRecords decode lines).filter (fun r => decide (r.pathText = P))).take 1 := by
  have h1 := grepMatchingFiles_ok_eq decode t v lines [] res hok
  have h2 := dedupFirst_filter P (matchRecords decode lines) []
  rw [if_neg (List.not_mem_nil P)] at h2
  refine ⟨h1, ?_, h2⟩
  rw [h2, List.length_take]
  omega

/-- Witness for C4: a stream with two match records for the same file
yields exactly one surviving record for that path. -/
theorem grepMatchingFiles_dedup_witness :
    ((dedupFirst [] (matchRecords (fun _ => some ⟨toL "match", toL "f.md", toL "x"⟩)
        [toL "\x7ba", toL "\x7bb"])).filter
      (fun r => decide (r.pathText = toL "f.md"))).length = 1 :=
  (grepMatchingFiles_dedup (fun _ => some ⟨toL "match", toL "f.md", toL "x"⟩) (toL "q") (toL "v")
    [toL "\x7ba", toL "\x7bb"]
    [⟨toL "default", toL "f", toL "x", toL "obsidian://open?vault=v&file=f.md"⟩]
    (toL "f.md") rfl (by decide)).2.1

/-! ## Helper lemmas about the ampersand post-processing -/

